import Mathlib

/-!
# Verification of the staticScript unwrapped-phrase scanner

Shallow embedding of the two shipped versions of the scanner
(`src/unnamed/part_000`, the tag-aware version, and `src/index.js`, the
version without tag stripping) together with proofs about the claims of
the specification.

Strings are modelled as `List Char` (Unicode scalar values); documents are
the line sequences produced by `readline` and are modelled as `List String`.
The JavaScript regular expressions are embedded as executable scanning
functions that mirror the engine's leftmost-match / continue-after-match
behaviour of `exec` and `replace` with the `g` flag.  Loops whose progress
depends on the matched length (the `exec` while loops) are given explicit
fuel so that every definition is executable; the zero-length-match case in
which the real `exec` loop does not advance `lastIndex` is analysed
separately (claim C2).
-/

namespace StaticScript

/-! ## Character model

`lowerCode` models the ASCII case canonicalisation performed by the `i`
regular-expression flag (only `A`-`Z` are folded; this agrees with the
JavaScript non-Unicode canonicalisation on the ASCII range, and non-ASCII
characters are compared verbatim).  `isWordChar` is the `\w` / `\b`
word-constituent class `[A-Za-z0-9_]`. -/

def lowerCode (c : Char) : Nat :=
  let n := c.toNat
  if 65 ≤ n ∧ n ≤ 90 then n + 32 else n

def ciEqChar (a b : Char) : Bool :=
  lowerCode a = lowerCode b

def isWordChar (c : Char) : Bool :=
  let n := c.toNat
  (97 ≤ n && n ≤ 122) || (65 ≤ n && n ≤ 90) || (48 ≤ n && n ≤ 57) || n == 95

/-! ## The annotation pattern

`/@\[(?:static|static-header)#(.*?)\]/gi` — embed the match attempt at a
fixed position.  `ciPrefixDrop pat cs` consumes `pat` case-insensitively
from the front of `cs`; `scanToClose` implements the non-greedy `(.*?)\]`
(payload up to the first closing bracket).  The alternation needs no
backtracking: when `static#` is a case-insensitive prefix of the input,
`static-header#` cannot be (the seventh character would have to be both
`#` and `-`). -/

def ciPrefixDrop : List Char → List Char → Option (List Char)
  | [], cs => some cs
  | _ :: _, [] => none
  | a :: pat, c :: cs => if ciEqChar a c then ciPrefixDrop pat cs else none

def scanToClose : List Char → Option (List Char × List Char)
  | [] => none
  | c :: cs =>
    if c = ']' then some ([], cs)
    else
      match scanToClose cs with
      | some (p, r) => some (c :: p, r)
      | none => none

/-- Attempt to match one annotation `@[static#…]` / `@[static-header#…]`
starting at the head of the list.  On success returns the captured payload
and the characters following the closing bracket. -/
def matchAnnotationAt : List Char → Option (List Char × List Char)
  | c1 :: c2 :: cs =>
    if c1 = '@' ∧ c2 = '[' then
      match ciPrefixDrop ("static#".toList) cs with
      | some rest => scanToClose rest
      | none =>
        match ciPrefixDrop ("static-header#".toList) cs with
        | some rest => scanToClose rest
        | none => none
    else none
  | _ => none

/-! Global scanning (`exec` in a loop / `replace` with `g`): find the
leftmost match, handle it, continue right after it.  Each match consumes at
least one character, so fuel `l.length` suffices; the fuel is threaded
explicitly to keep the definitions executable. -/

def extractPhrasesGo : Nat → List Char → List (List Char)
  | 0, _ => []
  | _, [] => []
  | fuel + 1, c :: cs =>
    match matchAnnotationAt (c :: cs) with
    | some (p, rest) => p :: extractPhrasesGo fuel rest
    | none => extractPhrasesGo fuel cs

/-- Pass-1 per-line work: the payloads of all annotations on the line, in
order of occurrence (the `WRAPPED_PHRASE_EXTRACTION_PATTERN` exec loop). -/
def extractPhrases (l : List Char) : List (List Char) :=
  extractPhrasesGo l.length l

def removeAnnotationsGo : Nat → List Char → List Char
  | 0, l => l
  | _, [] => []
  | fuel + 1, c :: cs =>
    match matchAnnotationAt (c :: cs) with
    | some (_, rest) => removeAnnotationsGo fuel rest
    | none => c :: removeAnnotationsGo fuel cs

/-- `line.replace(WRAPPED_PATTERN_REMOVAL_PATTERN, "")`. -/
def removeAnnotations (l : List Char) : List Char :=
  removeAnnotationsGo l.length l

/-! ## The HTML tag pattern (part_000 only)

`/<[^>]+?>/g`: a `<`, at least one character other than `>`, then the first
`>`.  Each matched span is replaced by a single space. -/

def scanTagBody : List Char → Option (List Char)
  | [] => none
  | c :: cs => if c = '>' then some cs else scanTagBody cs

/-- Attempt to match one `<[^>]+?>` span starting at the head of the list;
returns the characters following the closing `>`. -/
def matchTagAt : List Char → Option (List Char)
  | c1 :: c2 :: cs => if c1 = '<' ∧ c2 ≠ '>' then scanTagBody cs else none
  | _ => none

def replaceTagsGo : Nat → List Char → List Char
  | 0, l => l
  | _, [] => []
  | fuel + 1, c :: cs =>
    match matchTagAt (c :: cs) with
    | some rest => ' ' :: replaceTagsGo fuel rest
    | none => c :: replaceTagsGo fuel cs

/-- `cleanedLine.replace(HTML_TAG_PATTERN, " ")`. -/
def replaceTags (l : List Char) : List Char :=
  replaceTagsGo l.length l

/-- Does the line contain any span matched by the HTML tag pattern?
(Used to state claim C10's hypothesis.) -/
def containsTagSpan : List Char → Bool
  | [] => false
  | c :: cs => (matchTagAt (c :: cs)).isSome || containsTagSpan cs

/-- The tag-aware cleaner of `src/unnamed/part_000`: annotation removal
followed by tag-span replacement. -/
def cleanedLine (line : String) : List Char :=
  replaceTags (removeAnnotations line.toList)

/-- The cleaner of `src/index.js`: annotation removal only. -/
def cleanedLineV1 (line : String) : List Char :=
  removeAnnotations line.toList

/-! ## The bare-phrase pattern

`new RegExp("\\b" + escapeRegExp(phrase) + "\\b", "gi")`.  Because every
regular-expression metacharacter of the phrase is escaped, the compiled
pattern matches the phrase literally (case-insensitively), surrounded by
two word-boundary assertions.  `\b` holds at a position exactly when the
characters on its two sides (a missing character counting as a non-word
character) differ in word-constituency. -/

def wordCharAt (s : List Char) (i : Nat) : Bool :=
  match s[i]? with
  | some c => isWordChar c
  | none => false

def boundaryAt (s : List Char) (i : Nat) : Bool :=
  (decide (i ≠ 0) && wordCharAt s (i - 1)) != wordCharAt s i

def ciStartsWith (p cs : List Char) : Bool :=
  (ciPrefixDrop p cs).isSome

/-- Does the compiled pattern `\b phrase \b` match at position `i` of `s`? -/
def wholeWordMatchAt (p s : List Char) (i : Nat) : Bool :=
  boundaryAt s i && ciStartsWith p (s.drop i) && boundaryAt s (i + p.length)

def firstMatchFromGo (p s : List Char) : Nat → Nat → Option Nat
  | 0, _ => none
  | fuel + 1, i =>
    if i ≤ s.length then
      if wholeWordMatchAt p s i then some i else firstMatchFromGo p s fuel (i + 1)
    else none

/-- The position of the leftmost match of `\b phrase \b` in `s` at or after
position `i` (what `exec` finds when `lastIndex = i`). -/
def firstMatchFrom (p s : List Char) (i : Nat) : Option Nat :=
  firstMatchFromGo p s (s.length + 1 - i) i

/-- One successful `exec` call: the match position together with the new
`lastIndex` (match position plus match length). -/
def execStep (p s : List Char) (lastIndex : Nat) : Option (Nat × Nat) :=
  match firstMatchFrom p s lastIndex with
  | some j => some (j, j + p.length)
  | none => none

/-! ## The occurrence record

`Map<string, number[]>` with insertion order, modelled as an association
list. `setRec` is `Map.set`: it overwrites in place when the key exists and
appends otherwise. -/

abbrev OccRecord := List (List Char × List Nat)

def lookupRec : OccRecord → List Char → Option (List Nat)
  | [], _ => none
  | (q, v) :: rest, p => if q = p then some v else lookupRec rest p

def setRec : OccRecord → List Char → List Nat → OccRecord
  | [], p, v => [(p, v)]
  | (q, w) :: rest, p, v =>
    if q = p then (q, v) :: rest else (q, w) :: setRec rest p v

/-- The body of the inner `while` loop, run once per match: create the
entry if absent, then append the line number unless it already is the last
entry. -/
def pushLine (rec : OccRecord) (p : List Char) (n : Nat) : OccRecord :=
  let rec1 := if (lookupRec rec p).isSome then rec else setRec rec p []
  let cur := (lookupRec rec1 p).getD []
  if cur.getLast? = some n then rec1 else setRec rec1 p (cur ++ [n])

/-- The `while ((match = barePhrasePattern.exec(cleanedLine)) !== null)`
loop.  For a non-empty phrase the fuel `s.length + 1` is never exhausted
because `lastIndex` strictly increases; for the empty phrase the real loop
does not terminate (see claim C2). -/
def scanLoop (p s : List Char) (n : Nat) : Nat → Nat → OccRecord → OccRecord
  | 0, _, rec => rec
  | fuel + 1, li, rec =>
    match execStep p s li with
    | none => rec
    | some (_, li') => scanLoop p s n fuel li' (pushLine rec p n)

/-- Search one cleaned line for one known phrase, updating the record. -/
def scanPhrase (p s : List Char) (n : Nat) (rec : OccRecord) : OccRecord :=
  scanLoop p s n (s.length + 1) 0 rec

/-- The `for (const phrase of knownWrappedPhrases)` loop for one line. -/
def scanLine (known : List (List Char)) (rec : OccRecord) (s : List Char)
    (n : Nat) : OccRecord :=
  known.foldl (fun r q => scanPhrase q s n r) rec

/-! ## The two passes -/

/-- `Set.add`: keep insertion order, ignore duplicates. -/
def addUnique (acc : List (List Char)) (p : List Char) : List (List Char) :=
  if p ∈ acc then acc else acc ++ [p]

/-- Pass 1: the known wrapped phrases of the document, in insertion order. -/
def pass1 (lines : List String) : List (List Char) :=
  lines.foldl (fun acc line => (extractPhrases line.toList).foldl addUnique acc) []

/-- Pass 2 main loop, parameterised by the per-line cleaner (the only
difference between the two shipped versions); `n` is the 1-indexed number
of the next line. -/
def pass2Go (clean : String → List Char) (known : List (List Char)) :
    Nat → List String → OccRecord → OccRecord
  | _, [], rec => rec
  | n, line :: rest, rec =>
    pass2Go clean known (n + 1) rest (scanLine known rec (clean line) n)

def pass2 (clean : String → List Char) (known : List (List Char))
    (lines : List String) : OccRecord :=
  pass2Go clean known 1 lines []

/-- `findUnwrappedPhraseOccurrences` of `src/unnamed/part_000` (pure part:
pass 1, the empty-set short circuit, pass 2 with the tag-aware cleaner). -/
def findUnwrapped (lines : List String) : OccRecord :=
  if (pass1 lines).isEmpty then [] else pass2 cleanedLine (pass1 lines) lines

/-- `findUnwrappedPhraseOccurrences` of `src/index.js` (no tag stripping). -/
def findUnwrappedV1 (lines : List String) : OccRecord :=
  if (pass1 lines).isEmpty then [] else pass2 cleanedLineV1 (pass1 lines) lines

/-! ## The result reporter

`Array.from(map.keys()).sort()` uses the default comparator, which compares
the phrase strings as sequences of UTF-16 code units.  `utf16Units` is the
UTF-16 encoding of one scalar value; `lexLeNat` is lexicographic order on
code-unit sequences. -/

def utf16Units (c : Char) : List Nat :=
  let n := c.toNat
  if n < 65536 then [n]
  else [55296 + (n - 65536) / 1024, 56320 + (n - 65536) % 1024]

def utf16Key (s : List Char) : List Nat :=
  (s.map utf16Units).flatten

def lexLeNat : List Nat → List Nat → Bool
  | [], _ => true
  | _ :: _, [] => false
  | a :: as, b :: bs =>
    if a < b then true else if b < a then false else lexLeNat as bs

/-- The order in which the JavaScript default `sort` arranges phrases. -/
def phraseLe (p q : List Char) : Bool :=
  lexLeNat (utf16Key p) (utf16Key q)

def PhraseLE (p q : List Char) : Prop := phraseLe p q = true

instance decPhraseLE : DecidableRel PhraseLE := fun p q =>
  inferInstanceAs (Decidable (phraseLe p q = true))

/-- Order by Unicode code points — the order the specification's words
describe ("literal code-point order of the phrase string"). -/
def codePointLe (p q : List Char) : Bool :=
  lexLeNat (p.map Char.toNat) (q.map Char.toNat)

def sortedKeysOf (rec : OccRecord) : List (List Char) :=
  List.insertionSort PhraseLE (rec.map Prod.fst)

def concatAll : List (List α) → List α
  | [] => []
  | x :: xs => x ++ concatAll xs

/-- The `console.log` line printed for one phrase (skipped when the stored
list is absent or empty, mirroring the `if (lineNumbers && ...)` guard). -/
def renderPhraseLines (rec : OccRecord) (p : List Char) : List String :=
  match lookupRec rec p with
  | some lineNumbers =>
    if lineNumbers.length > 0 then
      ["Phrase \"" ++ String.mk p ++ "\" found unwrapped at lines: "
        ++ String.intercalate ", " (lineNumbers.map toString)]
    else []
  | none => []

/-- `processResults`: the list of lines printed to standard output. -/
def processResults (rec : OccRecord) : List String :=
  if rec.length > 0 then
    "\n--- Unwrapped Phrase Occurrences Found ---"
      :: concatAll ((sortedKeysOf rec).map (renderPhraseLines rec))
      ++ ["----------------------------------------"]
  else ["No unwrapped instances of known phrases found."]

/-! ## The main execution block

The I/O skeleton of `src/unnamed/part_000`: command-line validation, the
`fs.existsSync` check, the outer try/catch, process exit codes and which
stream each message goes to.  The file system is abstracted into two
inputs: whether the path exists and the outcome of reading it as lines.  A
read failure is modelled as occurring on the first read of pass 1 (the
`catch` sits around both passes, so a failure surfaces as the single
unexpected-error message).  `ranPass1`/`ranPass2` record which passes
started. -/

inductive Chan where
  | stdout
  | stderr
  deriving DecidableEq, Repr

structure RunResult where
  exitCode : Nat
  output : List (Chan × String)
  ranPass1 : Bool
  ranPass2 : Bool
  deriving DecidableEq, Repr

def mainModel (argv2 : Option String) (pathExists : Bool)
    (readRes : Except String (List String)) : RunResult :=
  match argv2 with
  | none =>
    ⟨1, [(Chan.stdout, "Usage: node index.js <path_to_your_text_file>"),
         (Chan.stdout, "\nPlease provide a file path as a command-line argument.")],
      false, false⟩
  | some fp =>
    let pre := [(Chan.stdout, "Searching for unwrapped phrases in: '" ++ fp ++ "'\n")]
    if pathExists = false then
      ⟨1, pre ++ [(Chan.stderr, "Error: The file at '" ++ fp ++ "' does not exist.")],
        false, false⟩
    else
      match readRes with
      | Except.error e =>
        ⟨1, pre ++ [(Chan.stdout, "Pass 1: Collecting phrases from wrapped patterns..."),
             (Chan.stderr,
               "An unexpected error occurred while processing '" ++ fp ++ "': " ++ e)],
          true, false⟩
      | Except.ok lines =>
        let known := pass1 lines
        let msgs1 := [(Chan.stdout, "Pass 1: Collecting phrases from wrapped patterns..."),
          (Chan.stdout, "Found " ++ toString known.length
            ++ " unique phrases in wrapped patterns.")]
        if known.isEmpty then
          ⟨0, pre ++ msgs1
              ++ [(Chan.stdout, "No wrapped phrases found to monitor for unwrapped instances.")]
              ++ (processResults []).map (fun s => (Chan.stdout, s)),
            true, false⟩
        else
          ⟨0, pre ++ msgs1
              ++ [(Chan.stdout,
                    "\nPass 2: Searching for unwrapped instances (ignoring HTML tags)...")]
              ++ (processResults (pass2 cleanedLine known lines)).map
                   (fun s => (Chan.stdout, s)),
            true, true⟩

/-! ## Spec-side definitions

These two definitions follow the words of the specification (not the code)
and exist to be compared against the code-derived matcher: a "whole-word
occurrence" in the spec's sense is an occurrence of the phrase, compared
case-insensitively, *bounded on both sides by non-word-constituent
characters or string edges* (spec §4.4 and glossary). -/

def specBoundedOccurrenceAt (p s : List Char) (i : Nat) : Bool :=
  ciStartsWith p (s.drop i)
    && !(decide (i ≠ 0) && wordCharAt s (i - 1))
    && !wordCharAt s (i + p.length)

def specOccurs (p s : List Char) : Bool :=
  (List.range (s.length + 1)).any (fun i => specBoundedOccurrenceAt p s i)

/-! ## Structural lemmas about the scanners -/

theorem ciPrefixDrop_suffix :
    ∀ {pat cs r : List Char}, ciPrefixDrop pat cs = some r → r <:+ cs := by
  intro pat
  induction pat with
  | nil => intro cs r h; simp [ciPrefixDrop] at h; simp [h]
  | cons a pat ih =>
    intro cs r h
    cases cs with
    | nil => simp [ciPrefixDrop] at h
    | cons c cs =>
      simp only [ciPrefixDrop] at h
      by_cases hc : ciEqChar a c = true
      · rw [if_pos hc] at h
        exact (ih h).trans (List.suffix_cons c cs)
      · rw [if_neg hc] at h; cases h

theorem scanToClose_suffix :
    ∀ {cs p r : List Char}, scanToClose cs = some (p, r) → r <:+ cs := by
  intro cs
  induction cs with
  | nil => intro p r h; simp [scanToClose] at h
  | cons c cs ih =>
    intro p r h
    simp only [scanToClose] at h
    by_cases hc : c = ']'
    · rw [if_pos hc] at h
      cases h
      exact List.suffix_cons c cs
    · rw [if_neg hc] at h
      cases hr : scanToClose cs with
      | none => rw [hr] at h; cases h
      | some pr =>
        rw [hr] at h
        cases h
        exact (ih hr).trans (List.suffix_cons c cs)

theorem matchAnnotationAt_suffix {l p rest : List Char}
    (h : matchAnnotationAt l = some (p, rest)) : rest <:+ l := by
  match l with
  | [] => simp [matchAnnotationAt] at h
  | [c] => simp [matchAnnotationAt] at h
  | c1 :: c2 :: cs =>
    simp only [matchAnnotationAt] at h
    by_cases hc : c1 = '@' ∧ c2 = '['
    · rw [if_pos hc] at h
      have step : ∀ {r : List Char}, r <:+ cs → r <:+ c1 :: c2 :: cs := fun hr =>
        (hr.trans (List.suffix_cons c2 cs)).trans (List.suffix_cons c1 (c2 :: cs))
      cases h1 : ciPrefixDrop ("static#".toList) cs with
      | some rest1 =>
        rw [h1] at h
        exact step ((scanToClose_suffix h).trans (ciPrefixDrop_suffix h1))
      | none =>
        rw [h1] at h
        cases h2 : ciPrefixDrop ("static-header#".toList) cs with
        | some rest2 =>
          rw [h2] at h
          exact step ((scanToClose_suffix h).trans (ciPrefixDrop_suffix h2))
        | none => rw [h2] at h; cases h
    · rw [if_neg hc] at h; cases h

theorem matchAnnotationAt_none_of_ne {c : Char} {cs : List Char} (h : c ≠ '@') :
    matchAnnotationAt (c :: cs) = none := by
  cases cs with
  | nil => rfl
  | cons c2 cs =>
    simp only [matchAnnotationAt]
    rw [if_neg]
    intro hc
    exact h hc.1

theorem removeAnnotationsGo_sublist : ∀ (fuel : Nat) (l : List Char),
    List.Sublist (removeAnnotationsGo fuel l) l := by
  intro fuel
  induction fuel with
  | zero => intro l; simp only [removeAnnotationsGo]; exact List.Sublist.refl l
  | succ fuel ih =>
    intro l
    cases l with
    | nil => simp only [removeAnnotationsGo]; exact List.Sublist.refl []
    | cons c cs =>
      simp only [removeAnnotationsGo]
      cases h : matchAnnotationAt (c :: cs) with
      | some pr =>
        exact (ih pr.2).trans (matchAnnotationAt_suffix (by rw [h])).sublist
      | none => exact (ih cs).cons₂ c

theorem removeAnnotations_sublist (l : List Char) :
    List.Sublist (removeAnnotations l) l :=
  removeAnnotationsGo_sublist l.length l

theorem scanTagBody_length :
    ∀ {cs r : List Char}, scanTagBody cs = some r → r.length < cs.length := by
  intro cs
  induction cs with
  | nil => intro r h; simp [scanTagBody] at h
  | cons c cs ih =>
    intro r h
    simp only [scanTagBody] at h
    by_cases hc : c = '>'
    · rw [if_pos hc] at h
      cases h
      simp
    · rw [if_neg hc] at h
      exact Nat.lt_trans (ih h) (by simp)

theorem scanTagBody_none_iff {cs : List Char} :
    scanTagBody cs = none ↔ '>' ∉ cs := by
  induction cs with
  | nil => simp [scanTagBody]
  | cons c cs ih =>
    simp only [scanTagBody, List.mem_cons]
    by_cases hc : c = '>'
    · rw [if_pos hc]
      simp [hc]
    · rw [if_neg hc]
      rw [ih]
      constructor
      · intro h hmem
        rcases hmem with h1 | h2
        · exact hc h1.symm
        · exact h h2
      · intro h hmem
        exact h (Or.inr hmem)

theorem matchTagAt_length {l r : List Char} (h : matchTagAt l = some r) :
    r.length + 3 ≤ l.length := by
  match l with
  | [] => simp [matchTagAt] at h
  | [c] => simp [matchTagAt] at h
  | c1 :: c2 :: cs =>
    simp only [matchTagAt] at h
    by_cases hc : c1 = '<' ∧ c2 ≠ '>'
    · rw [if_pos hc] at h
      have := scanTagBody_length h
      simp only [List.length_cons]
      omega
    · rw [if_neg hc] at h; cases h

theorem replaceTagsGo_length_le : ∀ (fuel : Nat) (l : List Char),
    (replaceTagsGo fuel l).length ≤ l.length := by
  intro fuel
  induction fuel with
  | zero => intro l; simp only [replaceTagsGo]; exact Nat.le_refl _
  | succ fuel ih =>
    intro l
    cases l with
    | nil => simp [replaceTagsGo]
    | cons c cs =>
      simp only [replaceTagsGo]
      cases h : matchTagAt (c :: cs) with
      | some rest =>
        have h1 := matchTagAt_length h
        have h2 := ih rest
        simp only [List.length_cons] at h1 ⊢
        omega
      | none =>
        simp only [List.length_cons]
        exact Nat.succ_le_succ (ih cs)

theorem replaceTags_length_le (l : List Char) : (replaceTags l).length ≤ l.length :=
  replaceTagsGo_length_le l.length l

/-! ## Lemmas about the occurrence record -/

theorem lookupRec_setRec (rec : OccRecord) (p : List Char) (v : List Nat)
    (q : List Char) :
    lookupRec (setRec rec p v) q = if q = p then some v else lookupRec rec q := by
  induction rec with
  | nil =>
    simp only [setRec, lookupRec]
    by_cases h : q = p
    · subst h; simp
    · rw [if_neg (fun hh : p = q => h hh.symm), if_neg h]
  | cons kv rest ih =>
    obtain ⟨k, w⟩ := kv
    simp only [setRec]
    by_cases hk : k = p
    · rw [if_pos hk]
      subst hk
      simp only [lookupRec]
      by_cases hq : k = q
      · rw [if_pos hq, if_pos hq.symm]
      · rw [if_neg hq, if_neg (fun h : q = k => hq h.symm), if_neg hq]
    · rw [if_neg hk]
      simp only [lookupRec]
      by_cases hq : k = q
      · subst hq
        rw [if_pos rfl, if_neg (fun h : k = p => hk h), if_pos rfl]
      · rw [if_neg hq, ih, if_neg hq]

theorem setRec_setRec (rec : OccRecord) (p : List Char) (v w : List Nat) :
    setRec (setRec rec p v) p w = setRec rec p w := by
  induction rec with
  | nil => simp [setRec]
  | cons kv rest ih =>
    obtain ⟨k, u⟩ := kv
    by_cases hk : k = p
    · subst hk
      simp [setRec]
    · simp [setRec, hk, ih]

/-- Characterisation of the per-match record update, fresh-key case. -/
theorem pushLine_none (rec : OccRecord) (p : List Char) (n : Nat)
    (h : lookupRec rec p = none) : pushLine rec p n = setRec rec p [n] := by
  unfold pushLine
  rw [h]
  simp only [Option.isSome_none, Bool.false_eq_true, if_false]
  rw [lookupRec_setRec, if_pos rfl]
  simp only [Option.getD_some, List.getLast?_nil]
  rw [if_neg (by simp), setRec_setRec]
  rfl

/-- Characterisation of the per-match record update, existing-key case. -/
theorem pushLine_some (rec : OccRecord) (p : List Char) (n : Nat)
    (l : List Nat) (h : lookupRec rec p = some l) :
    pushLine rec p n =
      if l.getLast? = some n then rec else setRec rec p (l ++ [n]) := by
  unfold pushLine
  rw [h]
  simp only [Option.isSome_some, if_true, Option.getD_some]
  rw [h]
  simp only [Option.getD_some]

theorem lookupRec_pushLine_self (rec : OccRecord) (p : List Char) (n : Nat) :
    ∃ l, lookupRec (pushLine rec p n) p = some l ∧ l.getLast? = some n := by
  cases h : lookupRec rec p with
  | none =>
    rw [pushLine_none rec p n h]
    refine ⟨[n], ?_, rfl⟩
    rw [lookupRec_setRec, if_pos rfl]
  | some l =>
    rw [pushLine_some rec p n l h]
    by_cases hl : l.getLast? = some n
    · rw [if_pos hl]
      exact ⟨l, h, hl⟩
    · rw [if_neg hl]
      refine ⟨l ++ [n], ?_, List.getLast?_concat l⟩
      rw [lookupRec_setRec, if_pos rfl]

theorem lookupRec_pushLine_other (rec : OccRecord) (p : List Char) (n : Nat)
    (q : List Char) (hq : q ≠ p) :
    lookupRec (pushLine rec p n) q = lookupRec rec q := by
  cases h : lookupRec rec p with
  | none => rw [pushLine_none rec p n h, lookupRec_setRec, if_neg hq]
  | some l =>
    rw [pushLine_some rec p n l h]
    by_cases hl : l.getLast? = some n
    · rw [if_pos hl]
    · rw [if_neg hl, lookupRec_setRec, if_neg hq]

/-- A record whose entry for `p` already ends in `n` is a fixed point of the
per-match update: all `exec`-loop iterations after the first one on a line
leave the record unchanged. -/
theorem pushLine_of_getLast (rec : OccRecord) (p : List Char) (n : Nat)
    (l : List Nat) (h : lookupRec rec p = some l) (hl : l.getLast? = some n) :
    pushLine rec p n = rec := by
  rw [pushLine_some rec p n l h, if_pos hl]

theorem scanLoop_stable (p s : List Char) (n : Nat) (fuel li : Nat)
    (rec : OccRecord) (l : List Nat) (h : lookupRec rec p = some l)
    (hl : l.getLast? = some n) :
    scanLoop p s n fuel li rec = rec := by
  induction fuel generalizing li with
  | zero => rfl
  | succ fuel ih =>
    simp only [scanLoop]
    cases hs : execStep p s li with
    | none => rfl
    | some jl =>
      rw [pushLine_of_getLast rec p n l h hl]
      exact ih jl.2

/-- The net effect of the whole `exec` loop for one phrase on one line:
the line number is recorded (with the duplicate-line guard) exactly when
the pattern matches somewhere in the cleaned line. -/
theorem scanPhrase_eq (p s : List Char) (n : Nat) (rec : OccRecord) :
    scanPhrase p s n rec =
      if (firstMatchFrom p s 0).isSome then pushLine rec p n else rec := by
  unfold scanPhrase
  simp only [scanLoop, execStep]
  cases h : firstMatchFrom p s 0 with
  | none => simp
  | some j =>
    simp only [Option.isSome_some, if_true]
    obtain ⟨l, hlook, hlast⟩ := lookupRec_pushLine_self rec p n
    exact scanLoop_stable p s n s.length (j + p.length) (pushLine rec p n) l hlook hlast

/-! ## Lemmas about the leftmost-match search -/

theorem firstMatchFromGo_some {p s : List Char} :
    ∀ {fuel i j : Nat}, firstMatchFromGo p s fuel i = some j →
      i ≤ j ∧ j ≤ s.length ∧ wholeWordMatchAt p s j = true := by
  intro fuel
  induction fuel with
  | zero => intro i j h; simp [firstMatchFromGo] at h
  | succ fuel ih =>
    intro i j h
    simp only [firstMatchFromGo] at h
    by_cases hi : i ≤ s.length
    · rw [if_pos hi] at h
      by_cases hm : wholeWordMatchAt p s i = true
      · rw [if_pos hm] at h
        cases h
        exact ⟨Nat.le_refl i, hi, hm⟩
      · rw [if_neg hm] at h
        obtain ⟨h1, h2, h3⟩ := ih h
        exact ⟨Nat.le_of_succ_le h1, h2, h3⟩
    · rw [if_neg hi] at h; cases h

theorem firstMatchFromGo_isSome {p s : List Char} :
    ∀ {fuel i j : Nat}, i ≤ j → j ≤ s.length → wholeWordMatchAt p s j = true →
      s.length + 1 - i ≤ fuel → (firstMatchFromGo p s fuel i).isSome = true := by
  intro fuel
  induction fuel with
  | zero =>
    intro i j hij hj _ hfuel
    omega
  | succ fuel ih =>
    intro i j hij hj hm hfuel
    simp only [firstMatchFromGo]
    rw [if_pos (Nat.le_trans hij hj)]
    by_cases hmi : wholeWordMatchAt p s i = true
    · rw [if_pos hmi]; rfl
    · rw [if_neg hmi]
      have hne : i ≠ j := fun he => hmi (he ▸ hm)
      exact ih (by omega) hj hm (by omega)

theorem firstMatchFrom_some {p s : List Char} {i j : Nat}
    (h : firstMatchFrom p s i = some j) :
    i ≤ j ∧ j ≤ s.length ∧ wholeWordMatchAt p s j = true :=
  firstMatchFromGo_some h

theorem firstMatchFrom_isSome {p s : List Char} {i j : Nat} (hij : i ≤ j)
    (hj : j ≤ s.length) (hm : wholeWordMatchAt p s j = true) :
    (firstMatchFrom p s i).isSome = true :=
  firstMatchFromGo_isSome hij hj hm (Nat.le_refl _)

/-! ## Character-class lemmas -/

theorem isWordChar_eq_lower (c : Char) :
    isWordChar c = ((97 ≤ lowerCode c && lowerCode c ≤ 122)
      || (48 ≤ lowerCode c && lowerCode c ≤ 57) || lowerCode c == 95) := by
  unfold isWordChar lowerCode
  by_cases h : 65 ≤ c.toNat ∧ c.toNat ≤ 90
  · rw [if_pos h]
    rw [Bool.eq_iff_iff]
    simp only [Bool.or_eq_true, Bool.and_eq_true, decide_eq_true_eq, beq_iff_eq]
    omega
  · rw [if_neg h]
    rw [Bool.eq_iff_iff]
    simp only [Bool.or_eq_true, Bool.and_eq_true, decide_eq_true_eq, beq_iff_eq]
    omega

/-- The `i`-flag canonicalisation never moves a character across the
word-constituent class boundary (on scalar values, ASCII folding). -/
theorem isWordChar_of_ciEq {a b : Char} (h : ciEqChar a b = true) :
    isWordChar a = isWordChar b := by
  unfold ciEqChar at h
  rw [decide_eq_true_eq] at h
  rw [isWordChar_eq_lower, isWordChar_eq_lower, h]

theorem ciPrefixDrop_getElem :
    ∀ {pat cs r : List Char}, ciPrefixDrop pat cs = some r →
      ∀ k, k < pat.length →
        ∃ a b, pat[k]? = some a ∧ cs[k]? = some b ∧ ciEqChar a b = true := by
  intro pat
  induction pat with
  | nil => intro cs r _ k hk; simp at hk
  | cons a pat ih =>
    intro cs r h k hk
    cases cs with
    | nil => simp [ciPrefixDrop] at h
    | cons c cs =>
      simp only [ciPrefixDrop] at h
      by_cases hc : ciEqChar a c = true
      · rw [if_pos hc] at h
        cases k with
        | zero => exact ⟨a, c, by simp, by simp, hc⟩
        | succ k =>
          obtain ⟨x, y, hx, hy, hxy⟩ := ih h k (by simpa using hk)
          exact ⟨x, y, by simpa using hx, by simpa using hy, hxy⟩
      · rw [if_neg hc] at h; cases h

theorem ciPrefixDrop_length :
    ∀ {pat cs r : List Char}, ciPrefixDrop pat cs = some r →
      pat.length ≤ cs.length := by
  intro pat
  induction pat with
  | nil => intro cs r _; simp
  | cons a pat ih =>
    intro cs r h
    cases cs with
    | nil => simp [ciPrefixDrop] at h
    | cons c cs =>
      simp only [ciPrefixDrop] at h
      by_cases hc : ciEqChar a c = true
      · rw [if_pos hc] at h
        simpa using Nat.succ_le_succ (ih h)
      · rw [if_neg hc] at h; cases h

theorem ciStartsWith_getElem {p t : List Char} (h : ciStartsWith p t = true)
    (k : Nat) (hk : k < p.length) :
    ∃ a b, p[k]? = some a ∧ t[k]? = some b ∧ ciEqChar a b = true := by
  unfold ciStartsWith at h
  rw [Option.isSome_iff_exists] at h
  obtain ⟨r, hr⟩ := h
  exact ciPrefixDrop_getElem hr k hk

theorem ciStartsWith_length {p t : List Char} (h : ciStartsWith p t = true) :
    p.length ≤ t.length := by
  unfold ciStartsWith at h
  rw [Option.isSome_iff_exists] at h
  obtain ⟨r, hr⟩ := h
  exact ciPrefixDrop_length hr

/-! ## Word boundaries versus the spec's "bounded by non-word characters"

For a phrase whose first and last characters are word constituents, the
`\b` assertions of the compiled pattern coincide, at every candidate match
position, with the specification's reading "bounded on both sides by
non-word-constituent characters or string edges". -/

theorem wordCharAt_of_head {p s : List Char} {i : Nat} {a : Char}
    (hpa : p.head? = some a) (hwa : isWordChar a = true)
    (hci : ciStartsWith p (s.drop i) = true) : wordCharAt s i = true := by
  have hlen : 0 < p.length := by
    cases p with
    | nil => simp at hpa
    | cons x xs => simp
  obtain ⟨x, y, hx, hy, hxy⟩ := ciStartsWith_getElem hci 0 hlen
  rw [← List.head?_eq_getElem?, hpa] at hx
  cases hx
  rw [List.getElem?_drop, Nat.add_zero] at hy
  unfold wordCharAt
  rw [hy]
  show isWordChar y = true
  rw [← isWordChar_of_ciEq hxy]
  exact hwa

theorem wordCharAt_of_getLast {p s : List Char} {i : Nat} {b : Char}
    (hpb : p.getLast? = some b) (hwb : isWordChar b = true)
    (hci : ciStartsWith p (s.drop i) = true) :
    wordCharAt s (i + p.length - 1) = true := by
  have hlen : 0 < p.length := by
    cases p with
    | nil => simp at hpb
    | cons x xs => simp
  obtain ⟨x, y, hx, hy, hxy⟩ := ciStartsWith_getElem hci (p.length - 1) (by omega)
  rw [← List.getLast?_eq_getElem?, hpb] at hx
  cases hx
  rw [List.getElem?_drop] at hy
  have hidx : i + (p.length - 1) = i + p.length - 1 := by omega
  rw [hidx] at hy
  unfold wordCharAt
  rw [hy]
  show isWordChar y = true
  rw [← isWordChar_of_ciEq hxy]
  exact hwb

theorem wholeWord_eq_specBounded {p s : List Char} {a b : Char}
    (hpa : p.head? = some a) (hwa : isWordChar a = true)
    (hpb : p.getLast? = some b) (hwb : isWordChar b = true) (i : Nat) :
    wholeWordMatchAt p s i = specBoundedOccurrenceAt p s i := by
  by_cases hci : ciStartsWith p (s.drop i) = true
  · have hlen : 0 < p.length := by
      cases p with
      | nil => simp at hpa
      | cons x xs => simp
    have hwi := wordCharAt_of_head hpa hwa hci
    have hwe := wordCharAt_of_getLast hpb hwb hci
    have hd : decide (i + p.length ≠ 0) = true := decide_eq_true (by omega)
    unfold wholeWordMatchAt specBoundedOccurrenceAt boundaryAt
    rw [hci, hwi, hd]
    have hidx : i + p.length - 1 = i + p.length - 1 := rfl
    rw [hwe]
    cases hX : (decide (i ≠ 0) && wordCharAt s (i - 1)) <;>
      cases hY : wordCharAt s (i + p.length) <;> rfl
  · rw [Bool.not_eq_true] at hci
    unfold wholeWordMatchAt specBoundedOccurrenceAt
    rw [hci]
    simp

theorem recordedMatch_eq_specOccurs {p s : List Char} {a b : Char}
    (hpa : p.head? = some a) (hwa : isWordChar a = true)
    (hpb : p.getLast? = some b) (hwb : isWordChar b = true) :
    (firstMatchFrom p s 0).isSome = specOccurs p s := by
  rw [Bool.eq_iff_iff]
  constructor
  · intro h
    rw [Option.isSome_iff_exists] at h
    obtain ⟨j, hj⟩ := h
    obtain ⟨_, hjle, hm⟩ := firstMatchFrom_some hj
    unfold specOccurs
    rw [List.any_eq_true]
    refine ⟨j, ?_, ?_⟩
    · rw [List.mem_range]; omega
    · rw [← wholeWord_eq_specBounded hpa hwa hpb hwb j]; exact hm
  · intro h
    unfold specOccurs at h
    rw [List.any_eq_true] at h
    obtain ⟨i, hmem, hsb⟩ := h
    rw [List.mem_range] at hmem
    have hm : wholeWordMatchAt p s i = true := by
      rw [wholeWord_eq_specBounded hpa hwa hpb hwb i]; exact hsb
    exact firstMatchFrom_isSome (Nat.zero_le i) (by omega) hm

/-! ## The record invariants (claims C5 and C6) -/

theorem pushLine_inv {rec : OccRecord} {p : List Char} {n : Nat} (hn : 1 ≤ n)
    (h : ∀ q l, lookupRec rec q = some l →
      List.Chain' (· < ·) l ∧ ∀ x ∈ l, 1 ≤ x ∧ x ≤ n) :
    ∀ q l, lookupRec (pushLine rec p n) q = some l →
      List.Chain' (· < ·) l ∧ ∀ x ∈ l, 1 ≤ x ∧ x ≤ n := by
  intro q l hq
  by_cases hqp : q = p
  · subst hqp
    cases hrec : lookupRec rec q with
    | none =>
      rw [pushLine_none _ _ _ hrec, lookupRec_setRec, if_pos rfl] at hq
      cases hq
      refine ⟨by simp, ?_⟩
      intro x hx
      rw [List.mem_singleton] at hx
      omega
    | some l0 =>
      rw [pushLine_some _ _ _ _ hrec] at hq
      by_cases hl : l0.getLast? = some n
      · rw [if_pos hl] at hq
        exact h q l hq
      · rw [if_neg hl, lookupRec_setRec, if_pos rfl] at hq
        cases hq
        obtain ⟨hch, hmem⟩ := h q l0 hrec
        constructor
        · refine List.Chain'.append hch (by simp) ?_
          intro x hx y hy
          simp only [Option.mem_def] at hx
          simp only [List.head?_cons, Option.mem_def, Option.some.injEq] at hy
          subst hy
          have hxl : x ∈ l0 := by
            rw [List.getLast?_eq_getElem?] at hx
            exact List.getElem?_mem hx
          have hxn : x ≠ n := fun he => hl (he ▸ hx)
          have := (hmem x hxl).2
          omega
        · intro x hx
          rw [List.mem_append] at hx
          rcases hx with hx | hx
          · exact hmem x hx
          · rw [List.mem_singleton] at hx
            omega
  · rw [lookupRec_pushLine_other rec p n q hqp] at hq
    exact h q l hq

theorem scanPhrase_inv {rec : OccRecord} {p s : List Char} {n : Nat} (hn : 1 ≤ n)
    (h : ∀ q l, lookupRec rec q = some l →
      List.Chain' (· < ·) l ∧ ∀ x ∈ l, 1 ≤ x ∧ x ≤ n) :
    ∀ q l, lookupRec (scanPhrase p s n rec) q = some l →
      List.Chain' (· < ·) l ∧ ∀ x ∈ l, 1 ≤ x ∧ x ≤ n := by
  rw [scanPhrase_eq]
  by_cases hm : (firstMatchFrom p s 0).isSome = true
  · rw [if_pos hm]
    exact pushLine_inv hn h
  · rw [if_neg hm]
    exact h

theorem scanFold_inv {s : List Char} {n : Nat} (hn : 1 ≤ n) :
    ∀ (ks : List (List Char)) (rec : OccRecord),
      (∀ q l, lookupRec rec q = some l →
        List.Chain' (· < ·) l ∧ ∀ x ∈ l, 1 ≤ x ∧ x ≤ n) →
      ∀ q l, lookupRec (ks.foldl (fun r k => scanPhrase k s n r) rec) q = some l →
        List.Chain' (· < ·) l ∧ ∀ x ∈ l, 1 ≤ x ∧ x ≤ n := by
  intro ks
  induction ks with
  | nil => intro rec h; exact h
  | cons k ks ih =>
    intro rec h
    exact ih (scanPhrase k s n rec) (scanPhrase_inv hn h)

theorem pass2Go_inv (clean : String → List Char) (known : List (List Char)) :
    ∀ (lines : List String) (n : Nat) (rec : OccRecord), 1 ≤ n →
      (∀ q l, lookupRec rec q = some l →
        List.Chain' (· < ·) l ∧ ∀ x ∈ l, 1 ≤ x ∧ x < n) →
      ∀ q l, lookupRec (pass2Go clean known n lines rec) q = some l →
        List.Chain' (· < ·) l ∧ ∀ x ∈ l, 1 ≤ x := by
  intro lines
  induction lines with
  | nil =>
    intro n rec _ h q l hq
    obtain ⟨h1, h2⟩ := h q l hq
    exact ⟨h1, fun x hx => (h2 x hx).1⟩
  | cons line rest ih =>
    intro n rec hn h
    simp only [pass2Go]
    refine ih (n + 1) _ (by omega) ?_
    have hpre : ∀ q l, lookupRec rec q = some l →
        List.Chain' (· < ·) l ∧ ∀ x ∈ l, 1 ≤ x ∧ x ≤ n := by
      intro q l hq
      obtain ⟨h1, h2⟩ := h q l hq
      exact ⟨h1, fun x hx => ⟨(h2 x hx).1, by have := (h2 x hx).2; omega⟩⟩
    intro q l hq
    obtain ⟨h1, h2⟩ := scanFold_inv hn known rec hpre q l hq
    exact ⟨h1, fun x hx => ⟨(h2 x hx).1, by have := (h2 x hx).2; omega⟩⟩

theorem pushLine_keys {rec : OccRecord} {p : List Char} {n : Nat} {q : List Char}
    (h : (lookupRec (pushLine rec p n) q).isSome = true) :
    q = p ∨ (lookupRec rec q).isSome = true := by
  by_cases hqp : q = p
  · exact Or.inl hqp
  · rw [lookupRec_pushLine_other rec p n q hqp] at h
    exact Or.inr h

theorem scanPhrase_keys {rec : OccRecord} {p s : List Char} {n : Nat} {q : List Char}
    (h : (lookupRec (scanPhrase p s n rec) q).isSome = true) :
    q = p ∨ (lookupRec rec q).isSome = true := by
  rw [scanPhrase_eq] at h
  by_cases hm : (firstMatchFrom p s 0).isSome = true
  · rw [if_pos hm] at h
    exact pushLine_keys h
  · rw [if_neg hm] at h
    exact Or.inr h

theorem scanFold_keys {s : List Char} {n : Nat} {known : List (List Char)} :
    ∀ (ks : List (List Char)) (rec : OccRecord), (∀ k ∈ ks, k ∈ known) →
      (∀ q, (lookupRec rec q).isSome = true → q ∈ known) →
      ∀ q, (lookupRec (ks.foldl (fun r k => scanPhrase k s n r) rec) q).isSome = true →
        q ∈ known := by
  intro ks
  induction ks with
  | nil => intro rec _ h; exact h
  | cons k ks ih =>
    intro rec hks h
    refine ih (scanPhrase k s n rec) (fun x hx => hks x (List.mem_cons_of_mem k hx)) ?_
    intro q hq
    rcases scanPhrase_keys hq with hqk | hqrec
    · exact hqk ▸ hks k (List.mem_cons_self k ks)
    · exact h q hqrec

theorem pass2Go_keys (clean : String → List Char) (known : List (List Char)) :
    ∀ (lines : List String) (n : Nat) (rec : OccRecord),
      (∀ q, (lookupRec rec q).isSome = true → q ∈ known) →
      ∀ q, (lookupRec (pass2Go clean known n lines rec) q).isSome = true → q ∈ known := by
  intro lines
  induction lines with
  | nil => intro n rec h; exact h
  | cons line rest ih =>
    intro n rec h
    simp only [pass2Go]
    exact ih (n + 1) _ (scanFold_keys known rec (fun k hk => hk) h)

/-! ## The reporter order (claim C8) -/

theorem lexLeNat_total : ∀ a b : List Nat, lexLeNat a b = true ∨ lexLeNat b a = true := by
  intro a
  induction a with
  | nil => intro b; exact Or.inl rfl
  | cons x xs ih =>
    intro b
    cases b with
    | nil => exact Or.inr rfl
    | cons y ys =>
      simp only [lexLeNat]
      rcases Nat.lt_trichotomy x y with h | h | h
      · left
        rw [if_pos h]
      · rcases ih ys with h2 | h2
        · left
          rw [if_neg (by omega), if_neg (by omega)]
          exact h2
        · right
          rw [if_neg (by omega), if_neg (by omega)]
          exact h2
      · right
        rw [if_pos h]

theorem lexLeNat_trans : ∀ {a b c : List Nat},
    lexLeNat a b = true → lexLeNat b c = true → lexLeNat a c = true := by
  intro a
  induction a with
  | nil => intro b c _ _; rfl
  | cons x xs ih =>
    intro b c hab hbc
    cases b with
    | nil => simp [lexLeNat] at hab
    | cons y ys =>
      cases c with
      | nil => simp [lexLeNat] at hbc
      | cons z zs =>
        simp only [lexLeNat] at hab hbc ⊢
        rcases Nat.lt_trichotomy x y with h1 | h1 | h1
        · rcases Nat.lt_trichotomy y z with h2 | h2 | h2
          · rw [if_pos (Nat.lt_trans h1 h2)]
          · rw [if_pos (show x < z by omega)]
          · rw [if_neg (by omega), if_pos h2] at hbc
            cases hbc
        · rcases Nat.lt_trichotomy y z with h2 | h2 | h2
          · rw [if_pos (show x < z by omega)]
          · rw [if_neg (by omega), if_neg (by omega)]
            rw [if_neg (by omega), if_neg (by omega)] at hab
            rw [if_neg (by omega), if_neg (by omega)] at hbc
            exact ih hab hbc
          · rw [if_neg (by omega), if_pos h2] at hbc
            cases hbc
        · rw [if_neg (by omega), if_pos h1] at hab
          cases hab

instance instPhraseLETotal : IsTotal (List Char) PhraseLE :=
  ⟨fun p q => lexLeNat_total (utf16Key p) (utf16Key q)⟩

instance instPhraseLETrans : IsTrans (List Char) PhraseLE :=
  ⟨fun _ _ _ hab hbc => lexLeNat_trans hab hbc⟩

/-! ## Tag-freeness is preserved by annotation removal (claim C10) -/

theorem containsTagSpan_suffix :
    ∀ {l2 l1 : List Char}, l1 <:+ l2 → containsTagSpan l2 = false →
      containsTagSpan l1 = false := by
  intro l2
  induction l2 with
  | nil =>
    intro l1 h _
    rw [List.suffix_nil] at h
    subst h
    rfl
  | cons c cs ih =>
    intro l1 h h2
    simp only [containsTagSpan, Bool.or_eq_false_iff] at h2
    rw [List.suffix_cons_iff] at h
    rcases h with h | h
    · subst h
      simp only [containsTagSpan, Bool.or_eq_false_iff]
      exact h2
    · exact ih h h2.2

theorem matchTagAt_none_of_ne {c : Char} {cs : List Char} (h : c ≠ '<') :
    matchTagAt (c :: cs) = none := by
  cases cs with
  | nil => rfl
  | cons c2 cs =>
    simp only [matchTagAt]
    rw [if_neg (fun hc => h hc.1)]

theorem matchTagAt_cons (c1 c2 : Char) (cs : List Char) :
    matchTagAt (c1 :: c2 :: cs) = if c1 = '<' ∧ c2 ≠ '>' then scanTagBody cs else none :=
  rfl

theorem removeAnnotationsGo_cons_of_ne (fuel : Nat) (c : Char) (cs : List Char)
    (h : c ≠ '@') :
    ∃ out, removeAnnotationsGo fuel (c :: cs) = c :: out := by
  cases fuel with
  | zero => exact ⟨cs, rfl⟩
  | succ fuel =>
    simp only [removeAnnotationsGo]
    rw [matchAnnotationAt_none_of_ne h]
    exact ⟨removeAnnotationsGo fuel cs, rfl⟩

theorem removeAnnotationsGo_nil (fuel : Nat) : removeAnnotationsGo fuel [] = [] := by
  cases fuel <;> rfl

theorem noTag_removeAnnotationsGo :
    ∀ (fuel : Nat) (l : List Char), containsTagSpan l = false →
      containsTagSpan (removeAnnotationsGo fuel l) = false := by
  intro fuel
  induction fuel with
  | zero => intro l h; simp only [removeAnnotationsGo]; exact h
  | succ fuel ih =>
    intro l h
    cases l with
    | nil => exact h
    | cons c cs =>
      simp only [containsTagSpan, Bool.or_eq_false_iff] at h
      obtain ⟨hmt, hcs⟩ := h
      simp only [removeAnnotationsGo]
      cases hma : matchAnnotationAt (c :: cs) with
      | some pr =>
        have hsuffix : pr.2 <:+ c :: cs := matchAnnotationAt_suffix (by rw [hma])
        have hfull : containsTagSpan (c :: cs) = false := by
          simp only [containsTagSpan, Bool.or_eq_false_iff]
          exact ⟨hmt, hcs⟩
        exact ih pr.2 (containsTagSpan_suffix hsuffix hfull)
      | none =>
        have hout : containsTagSpan (removeAnnotationsGo fuel cs) = false := ih cs hcs
        simp only [containsTagSpan, Bool.or_eq_false_iff]
        refine ⟨?_, hout⟩
        by_cases hc : c = '<'
        · subst hc
          cases cs with
          | nil =>
            rw [removeAnnotationsGo_nil]
            rfl
          | cons d cs2 =>
            by_cases hd : d = '>'
            · subst hd
              obtain ⟨out, hout2⟩ := removeAnnotationsGo_cons_of_ne fuel '>' cs2
                (by decide)
              rw [hout2]
              simp [matchTagAt]
            · have hWrongMt : matchTagAt ('<' :: d :: cs2) = none := by
                cases hx : matchTagAt ('<' :: d :: cs2) with
                | none => rfl
                | some r => rw [hx] at hmt; simp at hmt
              rw [matchTagAt_cons, if_pos ⟨rfl, hd⟩] at hWrongMt
              have hnotin : '>' ∉ cs2 := scanTagBody_none_iff.mp hWrongMt
              have hnotincs : '>' ∉ (d :: cs2) := by
                intro hmem
                rcases List.mem_cons.mp hmem with hcase | hcase
                · exact hd hcase.symm
                · exact hnotin hcase
              have hsub : ∀ x, x ∈ removeAnnotationsGo fuel (d :: cs2) → x ∈ d :: cs2 :=
                fun x hx => (removeAnnotationsGo_sublist fuel (d :: cs2)).subset hx
              cases hshape : removeAnnotationsGo fuel (d :: cs2) with
              | nil => rfl
              | cons e es =>
                rw [matchTagAt_cons]
                by_cases he : e = '>'
                · exfalso
                  refine hnotincs (hsub '>' ?_)
                  rw [hshape, ← he]
                  exact List.mem_cons_self e es
                · rw [if_pos ⟨rfl, he⟩]
                  have hnone : scanTagBody es = none := by
                    rw [scanTagBody_none_iff]
                    intro hmem
                    refine hnotincs (hsub '>' ?_)
                    rw [hshape]
                    exact List.mem_cons_of_mem e hmem
                  rw [hnone]
                  rfl
        · rw [matchTagAt_none_of_ne hc]
          rfl

theorem noTag_replaceTagsGo_id :
    ∀ (fuel : Nat) (l : List Char), containsTagSpan l = false →
      replaceTagsGo fuel l = l := by
  intro fuel
  induction fuel with
  | zero => intro l _; simp only [replaceTagsGo]
  | succ fuel ih =>
    intro l h
    cases l with
    | nil => rfl
    | cons c cs =>
      simp only [containsTagSpan, Bool.or_eq_false_iff] at h
      simp only [replaceTagsGo]
      cases hmt : matchTagAt (c :: cs) with
      | some r =>
        rw [hmt] at h
        simp at h
      | none =>
        rw [ih cs h.2]

/-! ## Helpers for claims C7 and C10 -/

theorem pass1_fold_id :
    ∀ (lines : List String) (acc : List (List Char)),
      (∀ line ∈ lines, extractPhrases line.toList = []) →
      lines.foldl (fun acc line => (extractPhrases line.toList).foldl addUnique acc) acc
        = acc := by
  intro lines
  induction lines with
  | nil => intro acc _; rfl
  | cons line rest ih =>
    intro acc h
    simp only [List.foldl_cons]
    rw [h line (List.mem_cons_self line rest)]
    simp only [List.foldl_nil]
    exact ih acc (fun l hl => h l (List.mem_cons_of_mem line hl))

theorem pass1_empty (lines : List String)
    (h : ∀ line ∈ lines, extractPhrases line.toList = []) : pass1 lines = [] :=
  pass1_fold_id lines [] h

theorem cleanedLine_eq_of_noTag (line : String)
    (h : containsTagSpan line.toList = false) :
    cleanedLine line = cleanedLineV1 line := by
  unfold cleanedLine cleanedLineV1 replaceTags
  apply noTag_replaceTagsGo_id
  unfold removeAnnotations
  exact noTag_removeAnnotationsGo _ _ h

theorem pass2Go_congr (clean1 clean2 : String → List Char)
    (known : List (List Char)) :
    ∀ (lines : List String), (∀ line ∈ lines, clean1 line = clean2 line) →
      ∀ (n : Nat) (rec : OccRecord),
        pass2Go clean1 known n lines rec = pass2Go clean2 known n lines rec := by
  intro lines
  induction lines with
  | nil => intro _ n rec; rfl
  | cons line rest ih =>
    intro h n rec
    simp only [pass2Go]
    rw [h line (List.mem_cons_self line rest)]
    exact ih (fun l hl => h l (List.mem_cons_of_mem line hl)) (n + 1) _

/-! ## The claims -/

/-- Claim C1: for the three-line document `["@[static#Home] is great.",
"Click Home to continue.", "<a href=\"Home\">Home</a> link"]`, pass 1
produces the known-phrase set `{"Home"}` and pass 2 the occurrence record
`{"Home" ↦ [2, 3]}`.  The third conjunct shows the cleaner turning line 3
into `" Home  link"`: the attribute value inside the tag span is elided, so
line 3 contributes exactly one recorded line number, for the visible link
text. -/
theorem c1_concrete_home_scenario :
    pass1 ["@[static#Home] is great.", "Click Home to continue.",
      "<a href=\"Home\">Home</a> link"] = ["Home".toList] ∧
    findUnwrapped ["@[static#Home] is great.", "Click Home to continue.",
      "<a href=\"Home\">Home</a> link"] = [("Home".toList, [2, 3])] ∧
    cleanedLine "<a href=\"Home\">Home</a> link" = " Home  link".toList := by
  decide

/-- Claim C2 (code bug): the scanner contains no guard for a zero-length
phrase.  A document with the annotation `@[static#]` puts the empty phrase
into the known set (first conjunct), and on the cleaned line `"hello"` the
compiled pattern `\b\b` yields a zero-length match at position 0 whose new
`lastIndex` equals the old one (second conjunct: `some (0, 0)` — match at
0, new `lastIndex` `0 + 0 = 0`), so the real `exec` while-loop repeats the
same state forever and pass 2 never terminates.  The claim's guarded
skip-and-complete behaviour is absent from the code. -/
theorem c2_empty_phrase_exec_stuck :
    pass1 ["@[static#]", "hello"] = [[]] ∧
    execStep [] "hello".toList 0 = some (0, 0) := by
  decide

/-- Claim C3 (counterexample to the claim as stated): the phrase `"+"`
extracted from `@[static#+]` is recorded for the line `"a+b"` (the `\b`
assertions hold because both neighbours are word characters), yet `"+"`
does not occur in the cleaned line bounded on both sides by
non-word-constituent characters or string edges, so "records a match
exactly when the phrase occurs bounded by non-word characters or edges" is
false for phrases with non-word edge characters. -/
theorem c3_whole_word_counterexample :
    findUnwrapped ["@[static#+]", "a+b"] = [("+".toList, [2])] ∧
    cleanedLine "a+b" = "a+b".toList ∧
    specOccurs "+".toList ("a+b".toList) = false := by
  decide

/-- Claim C3 (amended): for every known phrase whose first and last
characters are word constituents, and every cleaned line, the scanner
records a match exactly when the phrase occurs in the line, compared
case-insensitively, bounded on both sides by non-word-constituent
characters or string edges; in particular a phrase occurring only inside a
longer word is never recorded and a space/edge-delimited occurrence always
is (see the witness at "cat" / "the cat sat" / "category"). -/
theorem c3_scanner_records_iff_spec_bounded (p s : List Char) (n : Nat)
    (rec : OccRecord) (a b : Char) (hpa : p.head? = some a)
    (hwa : isWordChar a = true) (hpb : p.getLast? = some b)
    (hwb : isWordChar b = true) :
    (firstMatchFrom p s 0).isSome = specOccurs p s ∧
    scanPhrase p s n rec = (if specOccurs p s then pushLine rec p n else rec) := by
  have he : (firstMatchFrom p s 0).isSome = specOccurs p s :=
    recordedMatch_eq_specOccurs hpa hwa hpb hwb
  refine ⟨he, ?_⟩
  rw [scanPhrase_eq, he]

theorem c3_scanner_records_iff_spec_bounded_witness :
    ("cat".toList.head? = some 'c' ∧ isWordChar 'c' = true ∧
      "cat".toList.getLast? = some 't' ∧ isWordChar 't' = true) ∧
    ((firstMatchFrom "cat".toList "the cat sat".toList 0).isSome
        = specOccurs "cat".toList "the cat sat".toList ∧
      scanPhrase "cat".toList "the cat sat".toList 3 []
        = (if specOccurs "cat".toList "the cat sat".toList
            then pushLine [] "cat".toList 3 else [])) ∧
    ((firstMatchFrom "cat".toList "category".toList 0).isSome
        = specOccurs "cat".toList "category".toList ∧
      scanPhrase "cat".toList "category".toList 1 []
        = (if specOccurs "cat".toList "category".toList
            then pushLine [] "cat".toList 1 else [])) :=
  ⟨by decide,
   c3_scanner_records_iff_spec_bounded "cat".toList "the cat sat".toList 3 []
     'c' 't' (by decide) (by decide) (by decide) (by decide),
   c3_scanner_records_iff_spec_bounded "cat".toList "category".toList 1 []
     'c' 't' (by decide) (by decide) (by decide) (by decide)⟩

/-- Claim C4 (counterexample to the claim as stated): when no file-path
argument is supplied the program does exit with status 1 and runs no pass,
but both explanatory messages are written with `console.log`, i.e. to the
standard output stream, not to the error stream the claim requires. -/
theorem c4_usage_message_stream_counterexample :
    mainModel none true (Except.ok []) =
      ⟨1, [(Chan.stdout, "Usage: node index.js <path_to_your_text_file>"),
           (Chan.stdout, "\nPlease provide a file path as a command-line argument.")],
        false, false⟩ :=
  rfl

/-- Claim C4 (amended): the program exits with status 1 exactly in the
three claimed cases — (a) missing argument, (b) non-existing file, (c)
read failure — and with status 0 after printing the report otherwise; no
pass runs in (a) and (b); the explanatory message goes to the error stream
in cases (b) and (c) but to standard output in case (a). -/
theorem c4_exit_behavior_amended :
    (∀ (ex : Bool) (rr : Except String (List String)),
      mainModel none ex rr =
        ⟨1, [(Chan.stdout, "Usage: node index.js <path_to_your_text_file>"),
             (Chan.stdout, "\nPlease provide a file path as a command-line argument.")],
          false, false⟩) ∧
    (∀ (fp : String) (rr : Except String (List String)),
      mainModel (some fp) false rr =
        ⟨1, [(Chan.stdout, "Searching for unwrapped phrases in: '" ++ fp ++ "'\n"),
             (Chan.stderr, "Error: The file at '" ++ fp ++ "' does not exist.")],
          false, false⟩) ∧
    (∀ (fp e : String),
      mainModel (some fp) true (Except.error e) =
        ⟨1, [(Chan.stdout, "Searching for unwrapped phrases in: '" ++ fp ++ "'\n"),
             (Chan.stdout, "Pass 1: Collecting phrases from wrapped patterns..."),
             (Chan.stderr,
               "An unexpected error occurred while processing '" ++ fp ++ "': " ++ e)],
          true, false⟩) ∧
    (∀ (fp : String) (lines : List String),
      (mainModel (some fp) true (Except.ok lines)).exitCode = 0) := by
  refine ⟨fun ex rr => rfl, fun fp rr => rfl, fun fp e => rfl, fun fp lines => ?_⟩
  by_cases hk : (pass1 lines).isEmpty = true
  · simp [mainModel, hk]
  · simp [mainModel, hk]

/-- Claim C5: in the record produced by the tag-aware scanner, every
phrase's line-number sequence is strictly increasing and 1-indexed (each
line number is appended at most once per phrase). -/
theorem c5_record_lines_strict_increasing (lines : List String) (p : List Char)
    (l : List Nat) (h : lookupRec (findUnwrapped lines) p = some l) :
    List.Chain' (· < ·) l ∧ ∀ x ∈ l, 1 ≤ x := by
  unfold findUnwrapped pass2 at h
  by_cases hk : (pass1 lines).isEmpty = true
  · rw [if_pos hk] at h
    simp [lookupRec] at h
  · rw [if_neg hk] at h
    refine pass2Go_inv cleanedLine (pass1 lines) lines 1 [] (by omega) ?_ p l h
    intro q l0 hq
    simp [lookupRec] at hq

theorem c5_record_lines_strict_increasing_witness :
    lookupRec (findUnwrapped ["@[static#Home] is great.",
        "Click Home to continue.", "<a href=\"Home\">Home</a> link"])
      "Home".toList = some [2, 3] ∧
    (List.Chain' (· < ·) [2, 3] ∧ ∀ x ∈ [2, 3], 1 ≤ x) :=
  ⟨by decide,
   c5_record_lines_strict_increasing ["@[static#Home] is great.",
       "Click Home to continue.", "<a href=\"Home\">Home</a> link"]
     "Home".toList [2, 3] (by decide)⟩

/-- Claim C6: every phrase appearing as a key of the occurrence record is
a member of the known-phrase set produced by pass 1 — the scanner only
ever searches for known phrases. -/
theorem c6_record_keys_known (lines : List String) (p : List Char)
    (h : (lookupRec (findUnwrapped lines) p).isSome = true) :
    p ∈ pass1 lines := by
  unfold findUnwrapped pass2 at h
  by_cases hk : (pass1 lines).isEmpty = true
  · rw [if_pos hk] at h
    simp [lookupRec] at h
  · rw [if_neg hk] at h
    refine pass2Go_keys cleanedLine (pass1 lines) lines 1 [] ?_ p h
    intro q hq
    simp [lookupRec] at hq

theorem c6_record_keys_known_witness :
    (lookupRec (findUnwrapped ["@[static#Home] is great.",
        "Click Home to continue.", "<a href=\"Home\">Home</a> link"])
      "Home".toList).isSome = true ∧
    "Home".toList ∈ pass1 ["@[static#Home] is great.",
        "Click Home to continue.", "<a href=\"Home\">Home</a> link"] :=
  ⟨by decide, c6_record_keys_known ["@[static#Home] is great.",
      "Click Home to continue.", "<a href=\"Home\">Home</a> link"]
    "Home".toList (by decide)⟩

/-- Claim C7: a document with no annotation on any line yields an empty
known-phrase set, the scan short-circuits to the empty record (the model's
`ranPass2` flag stays false: pass 2 never starts), and the reporter states
that no unwrapped instances of known phrases were found. -/
theorem c7_no_annotations_empty (lines : List String)
    (h : ∀ line ∈ lines, extractPhrases line.toList = []) :
    pass1 lines = [] ∧ findUnwrapped lines = [] ∧
    processResults (findUnwrapped lines)
      = ["No unwrapped instances of known phrases found."] ∧
    ∀ fp : String, (mainModel (some fp) true (Except.ok lines)).ranPass2 = false := by
  have h1 : pass1 lines = [] := pass1_empty lines h
  have h2 : findUnwrapped lines = [] := by
    unfold findUnwrapped
    rw [h1]
    rfl
  refine ⟨h1, h2, by rw [h2]; rfl, ?_⟩
  intro fp
  simp [mainModel, h1]

theorem c7_no_annotations_empty_witness :
    (∀ line ∈ ["hello world", "<b>cat</b>"], extractPhrases line.toList = []) ∧
    (pass1 ["hello world", "<b>cat</b>"] = [] ∧
      findUnwrapped ["hello world", "<b>cat</b>"] = [] ∧
      processResults (findUnwrapped ["hello world", "<b>cat</b>"])
        = ["No unwrapped instances of known phrases found."] ∧
      ∀ fp : String, (mainModel (some fp) true
          (Except.ok ["hello world", "<b>cat</b>"])).ranPass2 = false) :=
  ⟨by decide, c7_no_annotations_empty ["hello world", "<b>cat</b>"] (by decide)⟩

/-- Claim C8 (counterexample to the claim as stated): `Array.sort()`
compares phrase strings by UTF-16 code units, not by code points.  With
known phrases 😀 (U+1F600, code units D83D DE00) and � (U+FFFD), the
reporter prints 😀 first, although in literal code-point order � (0xFFFD)
precedes 😀 (0x1F600) — second conjunct: code-point order disagrees with
the printed order. -/
theorem c8_sort_code_point_counterexample :
    processResults (findUnwrapped
        ["@[static#😀] @[static#\uFFFD]", "a😀a", "a\uFFFDa"]) =
      ["\n--- Unwrapped Phrase Occurrences Found ---",
       "Phrase \"😀\" found unwrapped at lines: 2",
       "Phrase \"\uFFFD\" found unwrapped at lines: 3",
       "----------------------------------------"] ∧
    codePointLe "😀".toList "\uFFFD".toList = false := by
  decide

/-- Claim C8 (amended): whenever the record is non-empty the reporter
prints exactly the record's phrases, sorted lexicographically by UTF-16
code units (which coincides with code-point order for phrases of
basic-plane characters), each phrase followed by its ordered line-number
list; reporting is a pure function of the record and leaves it unchanged. -/
theorem c8_report_sorted_by_code_units (rec : OccRecord) (h : 0 < rec.length) :
    (sortedKeysOf rec).Perm (rec.map Prod.fst) ∧
    List.Sorted PhraseLE (sortedKeysOf rec) ∧
    processResults rec =
      "\n--- Unwrapped Phrase Occurrences Found ---"
        :: concatAll ((sortedKeysOf rec).map (renderPhraseLines rec))
        ++ ["----------------------------------------"] := by
  refine ⟨List.perm_insertionSort PhraseLE _,
    List.sorted_insertionSort PhraseLE _, ?_⟩
  unfold processResults
  rw [if_pos h]

theorem c8_report_sorted_by_code_units_witness :
    0 < ([("Home".toList, [2, 3])] : OccRecord).length ∧
    ((sortedKeysOf [("Home".toList, [2, 3])]).Perm
        (([("Home".toList, [2, 3])] : OccRecord).map Prod.fst) ∧
      List.Sorted PhraseLE (sortedKeysOf [("Home".toList, [2, 3])]) ∧
      processResults [("Home".toList, [2, 3])] =
        "\n--- Unwrapped Phrase Occurrences Found ---"
          :: concatAll ((sortedKeysOf [("Home".toList, [2, 3])]).map
               (renderPhraseLines [("Home".toList, [2, 3])]))
          ++ ["----------------------------------------"]) :=
  ⟨by decide, c8_report_sorted_by_code_units [("Home".toList, [2, 3])] (by decide)⟩

/-- Claim C9: the tag-aware cleaner (annotation removal, then replacement
of every tag span by a single blank) never lengthens a line: the cleaned
line's length is at most the raw line's length. -/
theorem c9_cleaner_length_le (line : String) :
    (cleanedLine line).length ≤ line.length := by
  unfold cleanedLine
  calc (replaceTags (removeAnnotations line.toList)).length
      ≤ (removeAnnotations line.toList).length := replaceTags_length_le _
    _ ≤ line.toList.length := (removeAnnotations_sublist _).length_le
    _ = line.length := rfl

/-- Claim C10: on documents in which no line contains an HTML-like tag
span, the two shipped versions of the scanner — `src/index.js` (annotation
removal only) and `src/unnamed/part_000` (which additionally replaces tag
spans by a space) — produce identical occurrence records.  The proof rests
on tag-freeness being preserved by annotation removal, so the extra
tag-replacement step of part_000 is the identity. -/
theorem c10_versions_agree_without_tags (lines : List String)
    (h : ∀ line ∈ lines, containsTagSpan line.toList = false) :
    findUnwrapped lines = findUnwrappedV1 lines := by
  unfold findUnwrapped findUnwrappedV1
  by_cases hk : (pass1 lines).isEmpty = true
  · rw [if_pos hk, if_pos hk]
  · rw [if_neg hk, if_neg hk]
    unfold pass2
    exact pass2Go_congr cleanedLine cleanedLineV1 (pass1 lines) lines
      (fun line hl => cleanedLine_eq_of_noTag line (h line hl)) 1 []

theorem c10_versions_agree_without_tags_witness :
    (∀ line ∈ ["@[static#Home] is great.", "Click Home to continue."],
      containsTagSpan line.toList = false) ∧
    findUnwrapped ["@[static#Home] is great.", "Click Home to continue."]
      = findUnwrappedV1 ["@[static#Home] is great.", "Click Home to continue."] :=
  ⟨by decide, c10_versions_agree_without_tags
    ["@[static#Home] is great.", "Click Home to continue."] (by decide)⟩

end StaticScript
